import Mathlib

/-!
Shallow embedding of `metpy/interpolate/geometry.py` (natural-neighbor
interpolation geometry: triangle circumgeometry, natural-neighbor discovery
over a Delaunay triangulation, and boundary-polygon assembly).

Modelling conventions:
* Python floats are modelled as exact rationals (`ℚ`); a point is a pair.
* `math.sqrt` (the only irrational operation, used by `distance`) is
  modelled by an abstract parameter `sq : ℚ → ℚ`; every definition that the
  source builds on `distance` takes `sq` as an argument, and theorems hold
  for every `sq` unless they state otherwise.
* A raised Python exception (`ZeroDivisionError` in `circumcenter`) is
  modelled as `Option.none`; a function that calls `circumcenter` propagates
  `none` exactly where the exception would propagate in Python.
* The float `nan` returned by the circumradius functions for zero-area
  triangles is modelled as `none : Option ℚ` (an "undefined" sentinel value,
  not an exception); an IEEE comparison `x < nan` / `x <= nan` is false, so a
  comparison against a `none` radius is modelled as `false`.
* numpy fancy indexing `a[i]` with a negative `i` selects from the end
  (`a[-1]` is the last row); `pyIndexRow` reproduces this for the
  `tri.neighbors[tri.neighbors[cur_tri]]` lookup in `find_nn_triangles_point`.
* List indices that scipy guarantees in range are read with `List.getD`.
-/

namespace MetPy

/-- A 2-D point `(x, y)`, source `(X, Y) ndarray` rows. -/
abbrev Pt : Type := ℚ × ℚ

/-- `triangle_area(pt1, pt2, pt3)`: absolute shoelace sum over the three
vertices, halved (geometry.py lines 69-93). -/
def triangle_area (pt1 pt2 pt3 : Pt) : ℚ :=
  |pt1.1 * pt2.2 - pt2.1 * pt1.2 + (pt2.1 * pt3.2 - pt3.1 * pt2.2)
    + (pt3.1 * pt1.2 - pt1.1 * pt3.2)| / 2

/-- `dist_2(x0, y0, x1, y1)`: squared distance (lines 96-125). -/
def dist_2 (x0 y0 x1 y1 : ℚ) : ℚ :=
  (x1 - x0) * (x1 - x0) + (y1 - y0) * (y1 - y0)

/-- `distance(p0, p1) = math.sqrt(dist_2(...))` (lines 128-148), with
`math.sqrt` abstracted as `sq`. -/
def distance (sq : ℚ → ℚ) (p0 p1 : Pt) : ℚ :=
  sq (dist_2 p0.1 p0.2 p1.1 p1.2)

/-- `circumcircle_radius_2(pt0, pt1, pt2)` (lines 151-187): squared
circumradius `(a*b*c)² / (16*area²)` for positive area, else the `nan`
sentinel (`none`). -/
def circumcircle_radius_2 (sq : ℚ → ℚ) (pt0 pt1 pt2 : Pt) : Option ℚ :=
  let a := distance sq pt0 pt1
  let b := distance sq pt1 pt2
  let c := distance sq pt2 pt0
  let t_area := triangle_area pt0 pt1 pt2
  let prod2 := a * b * c
  if 0 < t_area then some (prod2 * prod2 / (16 * t_area * t_area)) else none

/-- `circumcircle_radius(pt0, pt1, pt2)` (lines 190-223): circumradius
`(a*b*c) / (4*area)` for positive area, else the `nan` sentinel (`none`). -/
def circumcircle_radius (sq : ℚ → ℚ) (pt0 pt1 pt2 : Pt) : Option ℚ :=
  let a := distance sq pt0 pt1
  let b := distance sq pt1 pt2
  let c := distance sq pt2 pt0
  let t_area := triangle_area pt0 pt1 pt2
  if 0 < t_area then some (a * b * c / (4 * t_area)) else none

/-- The denominator determinant `d_div` of `circumcenter` (line 264):
`a_x*(b_y - c_y) + b_x*(c_y - a_y) + c_x*(a_y - b_y)`. -/
def d_div (pt0 pt1 pt2 : Pt) : ℚ :=
  pt0.1 * (pt1.2 - pt2.2) + pt1.1 * (pt2.2 - pt0.2) + pt2.1 * (pt0.2 - pt1.2)

/-- `circumcenter(pt0, pt1, pt2)` (lines 226-278): the determinant-based
closed form; raises `ZeroDivisionError` (modelled `none`) when `d_div` is
exactly zero. -/
def circumcenter (pt0 pt1 pt2 : Pt) : Option Pt :=
  if d_div pt0 pt1 pt2 = 0 then none
  else
    let d_inv := (1 / 2) / d_div pt0 pt1 pt2
    let a_mag := pt0.1 * pt0.1 + pt0.2 * pt0.2
    let b_mag := pt1.1 * pt1.1 + pt1.2 * pt1.2
    let c_mag := pt2.1 * pt2.1 + pt2.2 * pt2.2
    some ((a_mag * (pt1.2 - pt2.2) + b_mag * (pt2.2 - pt0.2)
             + c_mag * (pt0.2 - pt1.2)) * d_inv,
          (a_mag * (pt2.1 - pt1.1) + b_mag * (pt0.1 - pt2.1)
             + c_mag * (pt1.1 - pt0.1)) * d_inv)

/-- The external Delaunay triangulation object, consumed read-only: sample
points, simplices as vertex-index triples, the neighbor table with `-1` as
the "no neighbor" sentinel, and the point-location query `find_simplex`
(negative result = outside the triangulation). -/
structure Triangulation where
  points : List Pt
  simplices : List (ℕ × ℕ × ℕ)
  neighbors : List (ℤ × ℤ × ℤ)
  find_simplex : Pt → ℤ

/-- `tri.points[i]`. -/
def getPoint (tri : Triangulation) (i : ℕ) : Pt :=
  tri.points.getD i (0, 0)

/-- Component `i` of a vertex-index triple (`tri.simplices[t][i]`). -/
def tripleGet (s : ℕ × ℕ × ℕ) (i : ℕ) : ℕ :=
  if i = 0 then s.1 else if i = 1 then s.2.1 else s.2.2

/-- A neighbor-table row as the list of its three entries. -/
def tripleToList (t : ℤ × ℤ × ℤ) : List ℤ :=
  [t.1, t.2.1, t.2.2]

/-- `tri.neighbors[i]` for a non-negative index. -/
def neighborRow (tri : Triangulation) (i : ℕ) : ℤ × ℤ × ℤ :=
  tri.neighbors.getD i (-1, -1, -1)

/-- `tri.neighbors[j]` with numpy index semantics: a negative `j` selects
from the end, so `j = -1` yields the last row. -/
def pyIndexRow (tri : Triangulation) (j : ℤ) : ℤ × ℤ × ℤ :=
  if 0 ≤ j then neighborRow tri j.toNat
  else neighborRow tri (tri.neighbors.length - (-j).toNat)

/-- `tri.points[tri.simplices[...]]`: the three points of a simplex. -/
def simplexPoints (tri : Triangulation) (s : ℕ × ℕ × ℕ) : Pt × Pt × Pt :=
  (getPoint tri s.1, getPoint tri s.2.1, getPoint tri s.2.2)

/-- Whether a simplex is degenerate: its `circumcenter` denominator
determinant is exactly zero (equivalently, its `triangle_area` is zero). -/
def degenerateSimplex (tri : Triangulation) (s : ℕ × ℕ × ℕ) : Prop :=
  d_div (simplexPoints tri s).1 (simplexPoints tri s).2.1 (simplexPoints tri s).2.2 = 0

/-- The candidate pool of `find_nn_triangles_point` (lines 356-362):
`set(tri.neighbors[cur_tri])` united with
`set(tri.neighbors[tri.neighbors[cur_tri]].flat)` — the inner rows are
selected with numpy index semantics, so a `-1` entry selects the LAST row —
then `candidates.discard(-1)`.  Modelled as a duplicate-free list; only
membership is specified (Python set iteration order is arbitrary). -/
def candidatePool (tri : Triangulation) (cur_tri : ℕ) : List ℤ :=
  let oneHop := tripleToList (neighborRow tri cur_tri)
  let twoHop := (oneHop.map (fun j => tripleToList (pyIndexRow tri j))).flatten
  ((oneHop ++ twoHop).dedup).filter (fun j => decide (j ≠ -1))

/-- Modelled from the spec (§4.4): the candidate pool as the spec words it —
"union of 1-hop and 2-hop triangulation neighbors of `containing_simplex`
(neighbors of neighbors), with the no-neighbor sentinel discarded" — i.e.
rows of real (non-sentinel) neighbors only, no numpy wrap-around. -/
def specCandidatePool (tri : Triangulation) (cur_tri : ℕ) : List ℤ :=
  let oneHop := tripleToList (neighborRow tri cur_tri)
  let twoHop := ((oneHop.filter (fun j => decide (0 ≤ j))).map
    (fun j => tripleToList (neighborRow tri j.toNat))).flatten
  ((oneHop ++ twoHop).dedup).filter (fun j => decide (j ≠ -1))

/-- The open-ball membership test of the `find_nn_triangles_point` loop body
(lines 364-372) for one candidate: squared distance from `point` to the
candidate's circumcenter strictly below its squared circumradius.  `false`
when the circumcenter raises or the radius is the `nan` sentinel. -/
def nnPred (sq : ℚ → ℚ) (tri : Triangulation) (point : Pt) (j : ℤ) : Bool :=
  let p := simplexPoints tri (tri.simplices.getD j.toNat (0, 0, 0))
  match circumcenter p.1 p.2.1 p.2.2, circumcircle_radius_2 sq p.1 p.2.1 p.2.2 with
  | some cc, some r => decide (dist_2 point.1 point.2 cc.1 cc.2 < r)
  | _, _ => false

/-- The `for neighbor in candidates` loop of `find_nn_triangles_point`
(lines 364-372): `circumcenter` may raise (`none` aborts the call); a
candidate whose squared distance to the circumcenter is strictly less than
the squared circumradius is appended to `nn`. -/
def nnTrianglesLoop (sq : ℚ → ℚ) (tri : Triangulation) (point : Pt) :
    List ℤ → List ℤ → Option (List ℤ)
  | [], nn => some nn
  | j :: rest, nn =>
    let p := simplexPoints tri (tri.simplices.getD j.toNat (0, 0, 0))
    match circumcenter p.1 p.2.1 p.2.2 with
    | none => none
    | some cc =>
      match circumcircle_radius_2 sq p.1 p.2.1 p.2.2 with
      | none => nnTrianglesLoop sq tri point rest nn
      | some r =>
        if dist_2 point.1 point.2 cc.1 cc.2 < r then
          nnTrianglesLoop sq tri point rest (nn ++ [j])
        else nnTrianglesLoop sq tri point rest nn

/-- `find_nn_triangles_point(tri, cur_tri, point)` (lines 331-374). -/
def find_nn_triangles_point (sq : ℚ → ℚ) (tri : Triangulation) (cur_tri : ℕ)
    (point : Pt) : Option (List ℤ) :=
  nnTrianglesLoop sq tri point (candidatePool tri cur_tri) []

/-- The closed-ball test of `tree.query_ball_point(cc, r)`: distance from the
grid point to the circumcenter at most the circumradius.  An IEEE comparison
against the `nan` sentinel (`none`) is false. -/
def ballTest (sq : ℚ → ℚ) (r : Option ℚ) (p cc : Pt) : Bool :=
  match r with
  | some rv => decide (distance sq p cc ≤ rv)
  | none => false

/-- One iteration of the `for i, simplices in enumerate(tri.simplices)` loop
of `find_natural_neighbors` (lines 313-326): compute the circumcenter (which
may raise) and circumradius, append the `TriangleInfo` entry, query for the
grid points within the circumradius of the circumcenter (a closed ball;
false against a `nan` radius), and append simplex `i` to the membership
entry of every qualifier that lies inside the triangulation. -/
def naturalNeighborStep (sq : ℚ → ℚ) (tri : Triangulation) (grid_points : List Pt)
    (st : List (List ℕ) × List (Pt × Option ℚ)) (i : ℕ) (s : ℕ × ℕ × ℕ) :
    Option (List (List ℕ) × List (Pt × Option ℚ)) :=
  let p := simplexPoints tri s
  match circumcenter p.1 p.2.1 p.2.2 with
  | none => none
  | some cc =>
    let r := circumcircle_radius sq p.1 p.2.1 p.2.2
    let qualifiers := (List.range grid_points.length).filter (fun g =>
      ballTest sq r (grid_points.getD g (0, 0)) cc)
    let members := qualifiers.foldl (fun m g =>
      if 0 ≤ tri.find_simplex (grid_points.getD g (0, 0)) then
        m.set g (m.getD g [] ++ [i])
      else m) st.1
    some (members, st.2 ++ [(cc, r)])

/-- The simplex loop of `find_natural_neighbors`, threaded through
`naturalNeighborStep`; a raised `ZeroDivisionError` aborts the whole pass. -/
def naturalNeighborPass (sq : ℚ → ℚ) (tri : Triangulation) (grid_points : List Pt) :
    List (ℕ × (ℕ × ℕ × ℕ)) → List (List ℕ) × List (Pt × Option ℚ) →
    Option (List (List ℕ) × List (Pt × Option ℚ))
  | [], st => some st
  | (i, s) :: rest, st =>
    match naturalNeighborStep sq tri grid_points st i s with
    | none => none
    | some st2 => naturalNeighborPass sq tri grid_points rest st2

/-- `find_natural_neighbors(tri, grid_points)` (lines 281-328): the
membership map (one entry per grid point, keys `0..len(grid_points)-1`,
modelled positionally) and the per-simplex `TriangleInfo` list. -/
def find_natural_neighbors (sq : ℚ → ℚ) (tri : Triangulation)
    (grid_points : List Pt) : Option (List (List ℕ) × List (Pt × Option ℚ)) :=
  naturalNeighborPass sq tri grid_points tri.simplices.enum
    (List.replicate grid_points.length [], [])

/-- The edge-collection update of `find_local_boundary` (lines 406-413): an
identical edge already present is removed; otherwise the exact reverse, if
present, is removed; otherwise the edge is appended. -/
def add_edge (edges : List (ℕ × ℕ)) (pt1 pt2 : ℕ) : List (ℕ × ℕ) :=
  if (pt1, pt2) ∈ edges then edges.erase (pt1, pt2)
  else if (pt2, pt1) ∈ edges then edges.erase (pt2, pt1)
  else edges ++ [(pt1, pt2)]

/-- `find_local_boundary(tri, triangles)` (lines 377-415): for every listed
triangle, its three directed edges `(simplices[t][i], simplices[t][(i+1)%3])`
are pushed through `add_edge`. -/
def find_local_boundary (tri : Triangulation) (triangles : List ℕ) : List (ℕ × ℕ) :=
  triangles.foldl (fun edges triangle =>
    (List.range 3).foldl (fun es i =>
      add_edge es (tripleGet (tri.simplices.getD triangle (0, 0, 0)) i)
        (tripleGet (tri.simplices.getD triangle (0, 0, 0)) ((i + 1) % 3))) edges) []

/-- Modelled from the spec (§4.3 `assemble_boundary_edges`): "when an edge is
added whose reverse is already present, both are removed ...; otherwise the
edge is appended" — cancellation on the exact reverse only, a duplicate
arriving in the same direction is appended. -/
def specAddEdge (edges : List (ℕ × ℕ)) (pt1 pt2 : ℕ) : List (ℕ × ℕ) :=
  if (pt2, pt1) ∈ edges then edges.erase (pt2, pt1)
  else edges ++ [(pt1, pt2)]

/-- Modelled from the spec (§4.3): boundary assembly with `specAddEdge` in
place of the source's `add_edge`. -/
def assemble_boundary_edges (tri : Triangulation) (triangles : List ℕ) :
    List (ℕ × ℕ) :=
  triangles.foldl (fun edges triangle =>
    (List.range 3).foldl (fun es i =>
      specAddEdge es (tripleGet (tri.simplices.getD triangle (0, 0, 0)) i)
        (tripleGet (tri.simplices.getD triangle (0, 0, 0)) ((i + 1) % 3))) edges) []

/-- `area(poly)` (lines 418-438): shoelace algorithm with wrap-around
indexing `(i + 1) % n`, absolute value halved. -/
def area (poly : List Pt) : ℚ :=
  |(List.range poly.length).foldl (fun a i =>
      a + ((poly.getD i (0, 0)).1 * (poly.getD ((i + 1) % poly.length) (0, 0)).2
        - (poly.getD ((i + 1) % poly.length) (0, 0)).1 * (poly.getD i (0, 0)).2)) 0| / 2

/-- The `while` loop of `order_edges` (lines 461-473), with the loop counter
`num_max` as fuel: scan the pool for the first edge whose start vertex equals
the current edge's end vertex; on a match move it from the pool to the chain,
otherwise only the counter decreases (the state never changes again).
Returns `(ordered_edges, edges)` — chain and remaining pool. -/
def orderEdgesGo {α : Type} [DecidableEq α] :
    ℕ → α × α → List (α × α) → List (α × α) → List (α × α) × List (α × α)
  | 0, _, pool, ordered => (ordered, pool)
  | fuel + 1, edge, pool, ordered =>
    if pool = [] then (ordered, pool)
    else
      match pool.find? (fun se => decide (se.1 = edge.2)) with
      | some se => orderEdgesGo fuel se (pool.erase se) (ordered ++ [se])
      | none => orderEdgesGo fuel edge pool ordered

/-- `order_edges(edges)` together with the final remaining pool.  The source
raises `IndexError` on an empty input (`edges[0]`); that case is modelled as
an empty result. -/
def orderEdgesState {α : Type} [DecidableEq α] (edges : List (α × α)) :
    List (α × α) × List (α × α) :=
  match edges with
  | [] => ([], [])
  | e :: rest => orderEdgesGo rest.length e rest [e]

/-- `order_edges(edges)` (lines 441-475): the ordered traversal chain. -/
def order_edges {α : Type} [DecidableEq α] (edges : List (α × α)) : List (α × α) :=
  (orderEdgesState edges).1

/-- Concrete triangulation: two triangles over the unit-square corners
`(0,0),(1,0),(1,1),(0,1)`, sharing the diagonal `0-2`. -/
def squareTri : Triangulation where
  points := [(0, 0), (1, 0), (1, 1), (0, 1)]
  simplices := [(0, 1, 2), (0, 2, 3)]
  neighbors := [(1, -1, -1), (0, -1, -1)]
  find_simplex := fun _ => -1

/-- Concrete triangulation: a strip of six triangles over two rows of four
points; simplex 0 is on the boundary (its neighbor row is `(1, -1, -1)`),
and simplex 4 is more than two hops away from simplex 0. -/
def stripTri : Triangulation where
  points := [(0, 0), (1, 0), (2, 0), (3, 0), (0, 1), (1, 1), (2, 1), (3, 1)]
  simplices := [(0, 1, 4), (1, 5, 4), (1, 2, 5), (2, 6, 5), (2, 3, 6), (3, 7, 6)]
  neighbors := [(1, -1, -1), (0, 2, -1), (1, 3, -1), (2, 4, -1), (3, 5, -1), (4, -1, -1)]
  find_simplex := fun _ => -1

/-- Concrete triangulation containing a degenerate simplex: simplex 0 is a
proper triangle, simplex 1 has its three vertices collinear on the x-axis. -/
def collinearTri : Triangulation where
  points := [(0, 0), (1, 0), (2, 0), (0, 1)]
  simplices := [(0, 1, 3), (0, 1, 2)]
  neighbors := [(1, -1, -1), (0, -1, -1)]
  find_simplex := fun _ => -1

/-- Concrete triangulation with a single right triangle; its `find_simplex`
reports only the grid point `(1/4, 1/4)` as inside. -/
def oneTriangle : Triangulation where
  points := [(0, 0), (1, 0), (0, 1)]
  simplices := [(0, 1, 2)]
  neighbors := [(-1, -1, -1)]
  find_simplex := fun p => if p = (1 / 4, 1 / 4) then 0 else -1

/-! ## Helper lemmas -/

/-- `circumcenter` yields `none` (the raised `ZeroDivisionError`) exactly on a
zero denominator determinant. -/
theorem circumcenter_eq_none_iff (pt0 pt1 pt2 : Pt) :
    circumcenter pt0 pt1 pt2 = none ↔ d_div pt0 pt1 pt2 = 0 := by
  unfold circumcenter
  split
  · simp [*]
  · simp [*]

/-- Algebraic core of the circumcenter correctness: with `u` a genuine half
inverse of the determinant, the closed-form numerators scaled by `u` give a
point equidistant from the three vertices. -/
theorem circumcenter_equidistant_aux (a1 a2 b1 b2 c1 c2 u : ℚ)
    (hu : u * (a1 * (b2 - c2) + b1 * (c2 - a2) + c1 * (a2 - b2)) = 1 / 2) :
    dist_2 (((a1 * a1 + a2 * a2) * (b2 - c2) + (b1 * b1 + b2 * b2) * (c2 - a2)
        + (c1 * c1 + c2 * c2) * (a2 - b2)) * u)
      (((a1 * a1 + a2 * a2) * (c1 - b1) + (b1 * b1 + b2 * b2) * (a1 - c1)
        + (c1 * c1 + c2 * c2) * (b1 - a1)) * u) a1 a2
      = dist_2 (((a1 * a1 + a2 * a2) * (b2 - c2) + (b1 * b1 + b2 * b2) * (c2 - a2)
          + (c1 * c1 + c2 * c2) * (a2 - b2)) * u)
        (((a1 * a1 + a2 * a2) * (c1 - b1) + (b1 * b1 + b2 * b2) * (a1 - c1)
          + (c1 * c1 + c2 * c2) * (b1 - a1)) * u) b1 b2
    ∧ dist_2 (((a1 * a1 + a2 * a2) * (b2 - c2) + (b1 * b1 + b2 * b2) * (c2 - a2)
          + (c1 * c1 + c2 * c2) * (a2 - b2)) * u)
        (((a1 * a1 + a2 * a2) * (c1 - b1) + (b1 * b1 + b2 * b2) * (a1 - c1)
          + (c1 * c1 + c2 * c2) * (b1 - a1)) * u) b1 b2
      = dist_2 (((a1 * a1 + a2 * a2) * (b2 - c2) + (b1 * b1 + b2 * b2) * (c2 - a2)
          + (c1 * c1 + c2 * c2) * (a2 - b2)) * u)
        (((a1 * a1 + a2 * a2) * (c1 - b1) + (b1 * b1 + b2 * b2) * (a1 - c1)
          + (c1 * c1 + c2 * c2) * (b1 - a1)) * u) c1 c2 := by
  unfold dist_2
  constructor
  · linear_combination (2 * ((b1 * b1 + b2 * b2) - (a1 * a1 + a2 * a2))) * hu
  · linear_combination (2 * ((c1 * c1 + c2 * c2) - (b1 * b1 + b2 * b2))) * hu

/-! ## Claim theorems -/

/-- C3: `circumcenter` raises its degenerate-triangle error (`none`) exactly
when the denominator determinant `a_x(b_y−c_y)+b_x(c_y−a_y)+c_x(a_y−b_y)` is
exactly zero, with no fallback center; any two coincident points force a zero
determinant; and for every nonzero determinant it returns the closed-form
circumcenter without error, which is equidistant from the three vertices. -/
theorem circumcenter_spec (pt0 pt1 pt2 : Pt) :
    (circumcenter pt0 pt1 pt2 = none ↔ d_div pt0 pt1 pt2 = 0)
    ∧ (pt0 = pt1 ∨ pt1 = pt2 ∨ pt0 = pt2 → d_div pt0 pt1 pt2 = 0)
    ∧ (d_div pt0 pt1 pt2 ≠ 0 → ∃ cc, circumcenter pt0 pt1 pt2 = some cc
        ∧ dist_2 cc.1 cc.2 pt0.1 pt0.2 = dist_2 cc.1 cc.2 pt1.1 pt1.2
        ∧ dist_2 cc.1 cc.2 pt1.1 pt1.2 = dist_2 cc.1 cc.2 pt2.1 pt2.2) := by
  refine ⟨circumcenter_eq_none_iff pt0 pt1 pt2, ?_, ?_⟩
  · rintro (h | h | h) <;> rw [← h] <;> unfold d_div <;> ring
  · intro h
    have hu : (1 / 2 : ℚ) / d_div pt0 pt1 pt2 * d_div pt0 pt1 pt2 = 1 / 2 :=
      div_mul_cancel₀ _ h
    unfold d_div at hu
    have haux := circumcenter_equidistant_aux pt0.1 pt0.2 pt1.1 pt1.2 pt2.1 pt2.2
      ((1 / 2) / d_div pt0 pt1 pt2) hu
    unfold circumcenter
    rw [if_neg h]
    exact ⟨_, rfl, haux.1, haux.2⟩

/-- C3 witness: at the spec's example of three collinear points
`(0,0), (1,1), (2,2)` the determinant is zero and `circumcenter` raises. -/
theorem circumcenter_spec_witness :
    circumcenter ((0 : ℚ), (0 : ℚ)) (1, 1) (2, 2) = none :=
  (circumcenter_spec ((0 : ℚ), (0 : ℚ)) (1, 1) (2, 2)).1.mpr (by norm_num [d_div])

/-- C6: for positive triangle area, `circumcircle_radius` returns
`(|ab|·|bc|·|ca|)/(4·area)` and `circumcircle_radius_2` returns exactly its
square; for zero area both return the undefined sentinel (`none`, the
source's `nan`) and neither raises (both are total). -/
theorem circumcircle_radius_spec (sq : ℚ → ℚ) (pt0 pt1 pt2 : Pt) :
    (0 < triangle_area pt0 pt1 pt2 →
      circumcircle_radius sq pt0 pt1 pt2
          = some (distance sq pt0 pt1 * distance sq pt1 pt2 * distance sq pt2 pt0
              / (4 * triangle_area pt0 pt1 pt2))
        ∧ ∃ r, circumcircle_radius sq pt0 pt1 pt2 = some r
            ∧ circumcircle_radius_2 sq pt0 pt1 pt2 = some (r * r))
    ∧ (triangle_area pt0 pt1 pt2 = 0 →
        circumcircle_radius sq pt0 pt1 pt2 = none
        ∧ circumcircle_radius_2 sq pt0 pt1 pt2 = none) := by
  constructor
  · intro h
    have hne : triangle_area pt0 pt1 pt2 ≠ 0 := ne_of_gt h
    constructor
    · unfold circumcircle_radius
      rw [if_pos h]
    · refine ⟨_, (by unfold circumcircle_radius; rw [if_pos h]), ?_⟩
      unfold circumcircle_radius_2
      rw [if_pos h, div_mul_div_comm,
        show (4 * triangle_area pt0 pt1 pt2) * (4 * triangle_area pt0 pt1 pt2)
            = 16 * triangle_area pt0 pt1 pt2 * triangle_area pt0 pt1 pt2 from by ring]
  · intro h
    have hnot : ¬ 0 < triangle_area pt0 pt1 pt2 := by rw [h]; exact lt_irrefl 0
    constructor
    · unfold circumcircle_radius; rw [if_neg hnot]
    · unfold circumcircle_radius_2; rw [if_neg hnot]

/-- C10: the shoelace `area` is total: on fewer than 3 vertices (empty, one,
or two) it returns exactly 0 without raising, and on every input its value is
non-negative. -/
theorem area_total_spec (poly : List Pt) :
    (poly.length < 3 → area poly = 0) ∧ 0 ≤ area poly := by
  constructor
  · intro h
    match poly with
    | [] => simp [area]
    | [p] => simp [area, List.range_succ]
    | [p, q] => simp [area, List.range_succ]
    | a :: b :: c :: t => simp at h; omega
  · exact div_nonneg (abs_nonneg _) (by norm_num)

/-- C2 counterexample: with the single triangle `(0,1,2)` listed twice, every
directed edge of the second copy arrives in the SAME direction as an edge
already present and is removed, leaving `[]`; under the spec's
reverse-only-cancellation rule the duplicates would be appended instead. -/
theorem find_local_boundary_same_direction_cex :
    find_local_boundary oneTriangle [0, 0] = []
    ∧ assemble_boundary_edges oneTriangle [0, 0]
        = [(0, 1), (1, 2), (2, 0), (0, 1), (1, 2), (2, 0)]
    ∧ find_local_boundary oneTriangle [0, 0] ≠ assemble_boundary_edges oneTriangle [0, 0] := by
  refine ⟨by decide, by decide, by decide⟩

/-- C2 (amended): in `find_local_boundary`, an incoming directed edge removes
an existing identical same-direction edge `(a,b)` if one is present; only
otherwise does it remove the exact reverse `(b,a)` if present; and only when
neither direction is present is it appended. -/
theorem add_edge_cases (edges : List (ℕ × ℕ)) (pt1 pt2 : ℕ) :
    ((pt1, pt2) ∈ edges → add_edge edges pt1 pt2 = edges.erase (pt1, pt2))
    ∧ ((pt1, pt2) ∉ edges → (pt2, pt1) ∈ edges →
        add_edge edges pt1 pt2 = edges.erase (pt2, pt1))
    ∧ ((pt1, pt2) ∉ edges → (pt2, pt1) ∉ edges →
        add_edge edges pt1 pt2 = edges ++ [(pt1, pt2)]) := by
  unfold add_edge
  exact ⟨fun h => by rw [if_pos h],
         fun h1 h2 => by rw [if_neg h1, if_pos h2],
         fun h1 h2 => by rw [if_neg h1, if_neg h2]⟩

/-- C5: on the two-triangle triangulation of the unit square, boundary
assembly cancels the shared diagonal leaving exactly the 4 outer edges, and
the shoelace area of the polygon obtained by ordering those edges with
`order_edges` is exactly 1. -/
theorem unit_square_round_trip :
    find_local_boundary squareTri [0, 1] = [(0, 1), (1, 2), (2, 3), (3, 0)]
    ∧ area ((order_edges (find_local_boundary squareTri [0, 1])).map
        (fun e => getPoint squareTri e.1)) = 1 := by
  constructor
  · decide
  · have h1 : (order_edges (find_local_boundary squareTri [0, 1])).map
        (fun e => getPoint squareTri e.1)
        = [(0, 0), (1, 0), (1, 1), (0, 1)] := by decide
    rw [h1]
    have h2 : area [((0 : ℚ), (0 : ℚ)), (1, 0), (1, 1), (0, 1)]
        = |0 + (0 * 0 - 1 * 0) + (1 * 1 - 1 * 0) + (1 * 1 - 0 * 1) + (0 * 0 - 0 * 1)| / 2 := rfl
    rw [h2]
    norm_num

/-- One `find_natural_neighbors` loop iteration raises (`none`) exactly on a
degenerate simplex: `circumcenter` is called before anything else useful. -/
theorem naturalNeighborStep_eq_none_iff (sq : ℚ → ℚ) (tri : Triangulation)
    (grid_points : List Pt) (st : List (List ℕ) × List (Pt × Option ℚ))
    (i : ℕ) (s : ℕ × ℕ × ℕ) :
    naturalNeighborStep sq tri grid_points st i s = none ↔ degenerateSimplex tri s := by
  simp only [naturalNeighborStep, degenerateSimplex]
  rw [← circumcenter_eq_none_iff]
  cases hcc : circumcenter (simplexPoints tri s).1 (simplexPoints tri s).2.1
      (simplexPoints tri s).2.2 <;> simp [hcc]

/-- The simplex loop of `find_natural_neighbors` aborts exactly when some
listed simplex is degenerate. -/
theorem naturalNeighborPass_eq_none_iff (sq : ℚ → ℚ) (tri : Triangulation)
    (grid_points : List Pt) :
    ∀ (l : List (ℕ × (ℕ × ℕ × ℕ))) (st : List (List ℕ) × List (Pt × Option ℚ)),
      naturalNeighborPass sq tri grid_points l st = none
        ↔ ∃ p ∈ l, degenerateSimplex tri p.2 := by
  intro l
  induction l with
  | nil => intro st; simp [naturalNeighborPass]
  | cons x rest ih =>
    intro st
    obtain ⟨i, s⟩ := x
    unfold naturalNeighborPass
    cases hstep : naturalNeighborStep sq tri grid_points st i s with
    | none =>
      have hd : degenerateSimplex tri s :=
        (naturalNeighborStep_eq_none_iff sq tri grid_points st i s).mp hstep
      simp only [hstep]
      exact ⟨fun _ => ⟨(i, s), List.mem_cons_self _ _, hd⟩, fun _ => trivial⟩
    | some st2 =>
      have hnd : ¬ degenerateSimplex tri s := fun hd => by
        have h2 := (naturalNeighborStep_eq_none_iff sq tri grid_points st i s).mpr hd
        rw [hstep] at h2
        cases h2
      simp only [hstep]
      rw [ih st2]
      constructor
      · rintro ⟨p, hp, hpd⟩
        exact ⟨p, List.mem_cons_of_mem _ hp, hpd⟩
      · rintro ⟨p, hp, hpd⟩
        rcases List.mem_cons.mp hp with h | h
        · subst h; exact absurd hpd hnd
        · exact ⟨p, h, hpd⟩

/-- C1 (amended): `find_natural_neighbors` does NOT skip degenerate
simplices: it aborts (the `ZeroDivisionError` of `circumcenter` propagates,
modelled `none`) precisely when the triangulation contains a degenerate
(zero-determinant, e.g. collinear-vertex) simplex; no sentinel radius is
recorded for it and no membership map is returned. -/
theorem find_natural_neighbors_abort_iff (sq : ℚ → ℚ) (tri : Triangulation)
    (grid_points : List Pt) :
    find_natural_neighbors sq tri grid_points = none
      ↔ ∃ s ∈ tri.simplices, degenerateSimplex tri s := by
  unfold find_natural_neighbors
  rw [naturalNeighborPass_eq_none_iff]
  constructor
  · rintro ⟨p, hp, hd⟩
    refine ⟨p.2, ?_, hd⟩
    have h2 : p.2 ∈ tri.simplices.enum.map Prod.snd := List.mem_map_of_mem _ hp
    rwa [List.enum_map_snd] at h2
  · rintro ⟨s, hs, hd⟩
    rw [← List.enum_map_snd tri.simplices] at hs
    obtain ⟨p, hp, hps⟩ := List.mem_map.mp hs
    exact ⟨p, hp, by rw [degenerateSimplex, hps]; exact hd⟩

/-- C1 counterexample: `collinearTri` contains one proper and one degenerate
simplex; `find_natural_neighbors` aborts with the propagated error instead of
completing the pass with the degenerate simplex flagged. -/
theorem find_natural_neighbors_degenerate_abort_cex :
    find_natural_neighbors id collinearTri [(0, 0)] = none := by
  unfold find_natural_neighbors
  rw [naturalNeighborPass_eq_none_iff]
  refine ⟨(1, (0, 1, 2)), by decide, ?_⟩
  show d_div (getPoint collinearTri 0) (getPoint collinearTri 1) (getPoint collinearTri 2) = 0
  norm_num [getPoint, collinearTri, d_div]

/-- The candidate loop of `find_nn_triangles_point`, when it completes
without raising, returns exactly the accumulated list extended by the
candidates passing the open-ball test, in order. -/
theorem nnTrianglesLoop_some_eq (sq : ℚ → ℚ) (tri : Triangulation) (point : Pt) :
    ∀ (l acc out : List ℤ),
      nnTrianglesLoop sq tri point l acc = some out →
      out = acc ++ l.filter (nnPred sq tri point) := by
  intro l
  induction l with
  | nil =>
    intro acc out h
    simp only [nnTrianglesLoop, Option.some.injEq] at h
    simp [← h]
  | cons j rest ih =>
    intro acc out h
    simp only [nnTrianglesLoop] at h
    cases hcc : circumcenter
        (simplexPoints tri (tri.simplices.getD j.toNat (0, 0, 0))).1
        (simplexPoints tri (tri.simplices.getD j.toNat (0, 0, 0))).2.1
        (simplexPoints tri (tri.simplices.getD j.toNat (0, 0, 0))).2.2 with
    | none => rw [hcc] at h; cases h
    | some cc =>
      rw [hcc] at h
      cases hr : circumcircle_radius_2 sq
          (simplexPoints tri (tri.simplices.getD j.toNat (0, 0, 0))).1
          (simplexPoints tri (tri.simplices.getD j.toNat (0, 0, 0))).2.1
          (simplexPoints tri (tri.simplices.getD j.toNat (0, 0, 0))).2.2 with
      | none =>
        rw [hr] at h
        have hp : nnPred sq tri point j = false := by
          simp only [nnPred]
          rw [hcc, hr]
        rw [ih acc out h, List.filter_cons, hp]
        simp
      | some r =>
        rw [hr] at h
        have h2 : (if dist_2 point.1 point.2 cc.1 cc.2 < r then
            nnTrianglesLoop sq tri point rest (acc ++ [j])
          else nnTrianglesLoop sq tri point rest acc) = some out := h
        by_cases hd : dist_2 point.1 point.2 cc.1 cc.2 < r
        · rw [if_pos hd] at h2
          have hp : nnPred sq tri point j = true := by
            simp only [nnPred]
            rw [hcc, hr]
            exact decide_eq_true hd
          rw [ih (acc ++ [j]) out h2, List.filter_cons, hp]
          simp
        · rw [if_neg hd] at h2
          have hp : nnPred sq tri point j = false := by
            simp only [nnPred]
            rw [hcc, hr]
            exact decide_eq_false hd
          rw [ih acc out h2, List.filter_cons, hp]
          simp

/-- C4 (amended): when `find_nn_triangles_point` completes, its result is
exactly those candidates of the code's pool — 1-hop neighbors united with
the rows selected by `tri.neighbors[tri.neighbors[cur_tri]]` under numpy
indexing (a `-1` sentinel entry selects the LAST row), sentinel discarded —
that pass the strict open-ball test against squared circumcenter distance
and squared circumradius; in particular the sentinel `-1` never appears. -/
theorem find_nn_triangles_point_characterization (sq : ℚ → ℚ)
    (tri : Triangulation) (cur_tri : ℕ) (point : Pt) (nn : List ℤ)
    (h : find_nn_triangles_point sq tri cur_tri point = some nn) :
    nn = (candidatePool tri cur_tri).filter (nnPred sq tri point)
    ∧ (∀ j, j ∈ nn ↔ j ∈ candidatePool tri cur_tri ∧ nnPred sq tri point j = true)
    ∧ (-1 : ℤ) ∉ nn := by
  have h1 : nn = (candidatePool tri cur_tri).filter (nnPred sq tri point) := by
    have h2 := nnTrianglesLoop_some_eq sq tri point (candidatePool tri cur_tri) [] nn h
    simpa using h2
  refine ⟨h1, fun j => by rw [h1, List.mem_filter], ?_⟩
  rw [h1]
  intro hmem
  have h3 := (List.mem_filter.mp hmem).1
  simp only [candidatePool, List.mem_filter] at h3
  exact absurd (of_decide_eq_true h3.2) (by simp)

/-- C4 witness: concrete run on the two-triangle square triangulation. -/
theorem find_nn_triangles_point_characterization_witness :
    ([1, 0] : List ℤ) = (candidatePool squareTri 0).filter (nnPred id squareTri (1 / 2, 1 / 2))
    ∧ (∀ j, j ∈ ([1, 0] : List ℤ)
        ↔ j ∈ candidatePool squareTri 0 ∧ nnPred id squareTri (1 / 2, 1 / 2) j = true)
    ∧ (-1 : ℤ) ∉ ([1, 0] : List ℤ) :=
  find_nn_triangles_point_characterization id squareTri 0 (1 / 2, 1 / 2) [1, 0] (by
    have hpool : candidatePool squareTri 0 = [1, 0] := by decide
    unfold find_nn_triangles_point
    rw [hpool]
    norm_num [nnTrianglesLoop, simplexPoints, getPoint, squareTri, circumcenter, d_div,
      circumcircle_radius_2, distance, dist_2, triangle_area, Int.toNat])

/-- C4 counterexample: on `stripTri` the containing simplex 0 is on the
boundary, so the numpy `-1` wrap-around adds the LAST simplex's neighbor row
to the pool, and the returned list is `[4]` although simplex 4 is not in the
spec's 1-hop/2-hop candidate pool of simplex 0. -/
theorem find_nn_triangles_point_pool_cex :
    find_nn_triangles_point id stripTri 0 (5 / 2, 1 / 2) = some [4]
    ∧ (4 : ℤ) ∉ specCandidatePool stripTri 0 := by
  constructor
  · have hpool : candidatePool stripTri 0 = [1, 0, 2, 4] := by decide
    unfold find_nn_triangles_point
    rw [hpool]
    norm_num [nnTrianglesLoop, simplexPoints, getPoint, stripTri, circumcenter, d_div,
      circumcircle_radius_2, distance, dist_2, triangle_area, Int.toNat]
  · decide

/-- C9: when the neighbor relation is symmetric, the containing simplex has
at least one real (non-sentinel) neighbor `j`, and the call completes, the
containing simplex itself lies in the candidate pool (via the 2-hop row of
`j`), so it appears in the returned natural-neighbor list whenever the point
lies strictly inside its own circumcircle. -/
theorem find_nn_triangles_point_contains_containing (sq : ℚ → ℚ)
    (tri : Triangulation) (cur_tri : ℕ) (point : Pt) (nn : List ℤ)
    (hcur : cur_tri < tri.neighbors.length)
    (hsym : ∀ i : ℕ, i < tri.neighbors.length →
      ∀ j ∈ tripleToList (neighborRow tri i), 0 ≤ j →
        (i : ℤ) ∈ tripleToList (neighborRow tri j.toNat))
    (hreal : ∃ j ∈ tripleToList (neighborRow tri cur_tri), 0 ≤ j)
    (hinside : ∃ cc r,
      circumcenter (simplexPoints tri (tri.simplices.getD cur_tri (0, 0, 0))).1
          (simplexPoints tri (tri.simplices.getD cur_tri (0, 0, 0))).2.1
          (simplexPoints tri (tri.simplices.getD cur_tri (0, 0, 0))).2.2 = some cc
      ∧ circumcircle_radius_2 sq
          (simplexPoints tri (tri.simplices.getD cur_tri (0, 0, 0))).1
          (simplexPoints tri (tri.simplices.getD cur_tri (0, 0, 0))).2.1
          (simplexPoints tri (tri.simplices.getD cur_tri (0, 0, 0))).2.2 = some r
      ∧ dist_2 point.1 point.2 cc.1 cc.2 < r)
    (h : find_nn_triangles_point sq tri cur_tri point = some nn) :
    (cur_tri : ℤ) ∈ nn := by
  obtain ⟨j, hj, hj0⟩ := hreal
  have hmem : (cur_tri : ℤ) ∈ candidatePool tri cur_tri := by
    simp only [candidatePool]
    rw [List.mem_filter]
    constructor
    · rw [List.mem_dedup, List.mem_append]
      right
      rw [List.mem_flatten]
      refine ⟨tripleToList (pyIndexRow tri j), List.mem_map_of_mem _ hj, ?_⟩
      have hrow : pyIndexRow tri j = neighborRow tri j.toNat := by
        simp only [pyIndexRow, if_pos hj0]
      rw [hrow]
      exact hsym cur_tri hcur j hj hj0
    · simp only [ne_eq, decide_eq_true_eq]
      omega
  have hpred : nnPred sq tri point (cur_tri : ℤ) = true := by
    obtain ⟨cc, r, hcc, hr, hd⟩ := hinside
    simp only [nnPred]
    rw [show ((cur_tri : ℤ)).toNat = cur_tri from rfl, hcc, hr]
    exact decide_eq_true hd
  have h1 := nnTrianglesLoop_some_eq sq tri point (candidatePool tri cur_tri) [] nn h
  rw [h1, List.nil_append]
  exact List.mem_filter.mpr ⟨hmem, hpred⟩

/-- C9 witness: on the square triangulation, with the point at the center of
simplex 0's circumcircle, simplex 0 is returned. -/
theorem find_nn_triangles_point_contains_containing_witness :
    ((0 : ℕ) : ℤ) ∈ ([1, 0] : List ℤ) :=
  find_nn_triangles_point_contains_containing id squareTri 0 (1 / 2, 1 / 2) [1, 0]
    (by decide) (by decide) (by decide)
    ⟨(1 / 2, 1 / 2), 1,
      by norm_num [simplexPoints, getPoint, squareTri, circumcenter, d_div],
      by norm_num [simplexPoints, getPoint, squareTri, circumcircle_radius_2,
        distance, dist_2, triangle_area],
      by norm_num [dist_2]⟩
    (by
      have hpool : candidatePool squareTri 0 = [1, 0] := by decide
      unfold find_nn_triangles_point
      rw [hpool]
      norm_num [nnTrianglesLoop, simplexPoints, getPoint, squareTri, circumcenter, d_div,
        circumcircle_radius_2, distance, dist_2, triangle_area, Int.toNat])

/-- `List.perm_cons_erase` for any lawful `BEq` instance (the instance the
elaborated `orderEdgesGo` uses is the product one, not the one
`List.perm_cons_erase` is stated with). -/
theorem perm_cons_erase_lawful {α : Type} [BEq α] [LawfulBEq α] {a : α} :
    ∀ {l : List α}, a ∈ l → l.Perm (a :: l.erase a) := by
  intro l h
  induction l with
  | nil => cases h
  | cons b t ih =>
    rw [List.erase_cons]
    by_cases hba : b = a
    · subst hba
      rw [if_pos (by simp)]
    · rw [if_neg (by simpa using hba)]
      rcases List.mem_cons.mp h with h1 | h1
      · exact absurd h1.symm hba
      · exact ((ih h1).cons b).trans (List.Perm.swap a b _)

/-- Once no pool edge starts at the current end vertex, further iterations
only burn the loop counter: the state never changes again. -/
theorem orderEdgesGo_stuck {α : Type} [DecidableEq α] (edge : α × α)
    (pool : List (α × α))
    (hfind : pool.find? (fun se => decide (se.1 = edge.2)) = none) :
    ∀ (fuel : ℕ) (ordered : List (α × α)),
      orderEdgesGo fuel edge pool ordered = (ordered, pool) := by
  intro fuel
  induction fuel with
  | zero => intro ordered; rfl
  | succ f ih =>
    intro ordered
    unfold orderEdgesGo
    by_cases hp : pool = []
    · rw [if_pos hp]
    · rw [if_neg hp, hfind]
      exact ih ordered

/-- Invariant of the `order_edges` loop: the chain keeps its head, stays a
chain (consecutive end = start), chain plus remaining pool is a permutation
of the initial state, and on exit either the pool is exhausted or no
remaining edge starts at the chain's final end vertex. -/
theorem orderEdgesGo_spec {α : Type} [DecidableEq α] :
    ∀ (fuel : ℕ) (edge : α × α) (pool ordered : List (α × α)),
      ordered ≠ [] → ordered.getLast? = some edge →
      List.Chain' (fun e f => e.2 = f.1) ordered →
      pool.length ≤ fuel →
      (orderEdgesGo fuel edge pool ordered).1.head? = ordered.head?
      ∧ List.Chain' (fun e f => e.2 = f.1) (orderEdgesGo fuel edge pool ordered).1
      ∧ ((orderEdgesGo fuel edge pool ordered).1
          ++ (orderEdgesGo fuel edge pool ordered).2).Perm (ordered ++ pool)
      ∧ ((orderEdgesGo fuel edge pool ordered).2 = []
          ∨ ∃ last, (orderEdgesGo fuel edge pool ordered).1.getLast? = some last
              ∧ ∀ e ∈ (orderEdgesGo fuel edge pool ordered).2, e.1 ≠ last.2) := by
  intro fuel
  induction fuel with
  | zero =>
    intro edge pool ordered h1 h2 h3 h4
    have hp : pool = [] := List.eq_nil_of_length_eq_zero (Nat.le_zero.mp h4)
    subst hp
    have heq : orderEdgesGo 0 edge [] ordered = (ordered, []) := rfl
    rw [heq]
    exact ⟨rfl, h3, by simp, Or.inl rfl⟩
  | succ f ih =>
    intro edge pool ordered h1 h2 h3 h4
    by_cases hp : pool = []
    · have heq : orderEdgesGo (f + 1) edge pool ordered = (ordered, pool) := by
        unfold orderEdgesGo; rw [if_pos hp]
      rw [heq]
      subst hp
      exact ⟨rfl, h3, by simp, Or.inl rfl⟩
    · cases hfind : pool.find? (fun se => decide (se.1 = edge.2)) with
      | none =>
        have heq := orderEdgesGo_stuck edge pool hfind (f + 1) ordered
        rw [heq]
        refine ⟨rfl, h3, List.Perm.refl _, Or.inr ⟨edge, h2, ?_⟩⟩
        intro e he
        have h5 := List.find?_eq_none.mp hfind e he
        simpa using h5
      | some se =>
        have hmem : se ∈ pool := List.mem_of_find?_eq_some hfind
        have hperm : pool.Perm (se :: pool.erase se) := perm_cons_erase_lawful hmem
        have hpred : se.1 = edge.2 :=
          of_decide_eq_true
            (@List.find?_some _ (fun se => decide (se.1 = edge.2)) se pool hfind)
        have heq : orderEdgesGo (f + 1) edge pool ordered
            = orderEdgesGo f se (pool.erase se) (ordered ++ [se]) := by
          conv_lhs => rw [orderEdgesGo]
          rw [if_neg hp, hfind]
        have hlen : (pool.erase se).length ≤ f := by
          rw [List.length_erase_of_mem hmem]
          have h6 : 0 < pool.length := List.length_pos.mpr hp
          omega
        have hlast : (ordered ++ [se]).getLast? = some se := List.getLast?_concat _
        have hchain : List.Chain' (fun e f => e.2 = f.1) (ordered ++ [se]) := by
          rw [List.chain'_append]
          refine ⟨h3, List.chain'_singleton se, ?_⟩
          intro x hx y hy
          rw [h2] at hx
          simp only [Option.mem_some_iff] at hx
          simp only [List.head?_cons, Option.mem_some_iff] at hy
          subst hx
          subst hy
          exact hpred.symm
        obtain ⟨ihh, ihc, ihp, ihs⟩ :=
          ih se (pool.erase se) (ordered ++ [se]) (by simp) hlast hchain hlen
        rw [heq]
        refine ⟨?_, ihc, ?_, ihs⟩
        · rw [ihh]
          exact List.head?_append_of_ne_nil _ h1
        · refine ihp.trans ?_
          rw [List.append_assoc, List.singleton_append]
          exact List.Perm.append_left ordered hperm.symm

/-- C7: for every non-empty edge list, `order_edges` returns a chain starting
at the first input edge, in which consecutive edges satisfy end = start, whose
edges are drawn without reuse from the input (chain plus final pool is a
permutation of the input), and which stops only with the pool exhausted or no
pool edge starting at the final end vertex; closure is never verified. -/
theorem order_edges_spec {α : Type} [DecidableEq α] (edges : List (α × α))
    (h : edges ≠ []) :
    (order_edges edges).head? = edges.head?
    ∧ List.Chain' (fun e f => e.2 = f.1) (order_edges edges)
    ∧ (order_edges edges ++ (orderEdgesState edges).2).Perm edges
    ∧ ((orderEdgesState edges).2 = []
        ∨ ∃ last, (order_edges edges).getLast? = some last
            ∧ ∀ e ∈ (orderEdgesState edges).2, e.1 ≠ last.2) := by
  match edges with
  | [] => exact absurd rfl h
  | e :: rest =>
    obtain ⟨h1, h2, h3, h4⟩ := orderEdgesGo_spec rest.length e rest [e]
      (by simp) (by simp) (List.chain'_singleton e) le_rfl
    exact ⟨h1, h2, h3, h4⟩

/-- C7 witness: concrete run on the two-edge chain `(0,1), (1,2)`. -/
theorem order_edges_spec_witness :
    (order_edges [((0 : ℕ), (1 : ℕ)), (1, 2)]).head?
        = ([((0 : ℕ), (1 : ℕ)), (1, 2)]).head?
    ∧ List.Chain' (fun e f => e.2 = f.1) (order_edges [((0 : ℕ), (1 : ℕ)), (1, 2)])
    ∧ (order_edges [((0 : ℕ), (1 : ℕ)), (1, 2)]
        ++ (orderEdgesState [((0 : ℕ), (1 : ℕ)), (1, 2)]).2).Perm
          [((0 : ℕ), (1 : ℕ)), (1, 2)]
    ∧ ((orderEdgesState [((0 : ℕ), (1 : ℕ)), (1, 2)]).2 = []
        ∨ ∃ last, (order_edges [((0 : ℕ), (1 : ℕ)), (1, 2)]).getLast? = some last
            ∧ ∀ e ∈ (orderEdgesState [((0 : ℕ), (1 : ℕ)), (1, 2)]).2, e.1 ≠ last.2) :=
  order_edges_spec [((0 : ℕ), (1 : ℕ)), (1, 2)] (by decide)

/-- `List.set` then `getD` at the same in-range index reads the new value. -/
theorem getD_set_self_list {α : Type} (l : List α) (i : ℕ) (a d : α)
    (h : i < l.length) : (l.set i a).getD i d = a := by
  have h2 : i < (l.set i a).length := by simpa using h
  rw [List.getD_eq_getElem _ _ h2, List.getElem_set]
  simp

/-- `List.set` then `getD` at a different index reads the old value. -/
theorem getD_set_ne_list {α : Type} (l : List α) (i k : ℕ) (a d : α)
    (hik : i ≠ k) : (l.set i a).getD k d = l.getD k d := by
  by_cases hk : k < l.length
  · have hk2 : k < (l.set i a).length := by simpa using hk
    rw [List.getD_eq_getElem _ _ hk2, List.getD_eq_getElem _ _ hk, List.getElem_set,
      if_neg hik]
  · have hk3 : l.length ≤ k := not_lt.mp hk
    rw [List.getD_eq_default _ _ (by simpa using hk3), List.getD_eq_default _ _ hk3]

/-- Reading any index of the freshly initialised membership map gives `[]`. -/
theorem getD_replicate_nil_list (n g : ℕ) :
    (List.replicate n ([] : List ℕ)).getD g [] = [] := by
  by_cases hg : g < n
  · rw [List.getD_eq_getElem _ _ (by simpa using hg)]
    exact List.getElem_replicate _ _
  · rw [List.getD_eq_default]
    simpa using not_lt.mp hg

/-- The qualifier loop of `find_natural_neighbors` appends simplex `i` to the
entry of exactly the qualifiers lying inside the triangulation, leaving every
other entry untouched. -/
theorem memberFold_getD (tri : Triangulation) (grid_points : List Pt) (i : ℕ) :
    ∀ (quals : List ℕ) (m : List (List ℕ)), quals.Nodup →
      (∀ q ∈ quals, q < m.length) →
      ∀ g : ℕ,
        ((quals.foldl (fun m g =>
            if 0 ≤ tri.find_simplex (grid_points.getD g (0, 0)) then
              m.set g (m.getD g [] ++ [i])
            else m) m).getD g [])
          = if g ∈ quals ∧ 0 ≤ tri.find_simplex (grid_points.getD g (0, 0))
            then m.getD g [] ++ [i] else m.getD g [] := by
  intro quals
  induction quals with
  | nil =>
    intro m _ _ g
    simp
  | cons q qs ih =>
    intro m hnd hbound g
    have hq_lt : q < m.length := hbound q (List.mem_cons_self _ _)
    have hnd2 : qs.Nodup := (List.nodup_cons.mp hnd).2
    have hqn : q ∉ qs := (List.nodup_cons.mp hnd).1
    rw [List.foldl_cons]
    by_cases hguard : 0 ≤ tri.find_simplex (grid_points.getD q (0, 0))
    · rw [if_pos hguard]
      have hlen2 : ∀ p ∈ qs, p < (m.set q (m.getD q [] ++ [i])).length := by
        intro p hp
        simpa using hbound p (List.mem_cons_of_mem _ hp)
      rw [ih (m.set q (m.getD q [] ++ [i])) hnd2 hlen2 g]
      by_cases hgq : g = q
      · subst hgq
        rw [if_neg (fun hc => hqn hc.1), if_pos ⟨List.mem_cons_self _ _, hguard⟩,
          getD_set_self_list _ _ _ _ hq_lt]
      · rw [getD_set_ne_list _ _ _ _ _ (fun hc => hgq hc.symm)]
        by_cases hgm : g ∈ qs ∧ 0 ≤ tri.find_simplex (grid_points.getD g (0, 0))
        · rw [if_pos hgm, if_pos ⟨List.mem_cons_of_mem _ hgm.1, hgm.2⟩]
        · rw [if_neg hgm, if_neg (fun hc => hgm ⟨(List.mem_cons.mp hc.1).resolve_left hgq, hc.2⟩)]
    · rw [if_neg hguard]
      rw [ih m hnd2 (fun p hp => hbound p (List.mem_cons_of_mem _ hp)) g]
      by_cases hgq : g = q
      · subst hgq
        rw [if_neg (fun hc => hqn hc.1), if_neg (fun hc => hguard hc.2)]
      · by_cases hgm : g ∈ qs ∧ 0 ≤ tri.find_simplex (grid_points.getD g (0, 0))
        · rw [if_pos hgm, if_pos ⟨List.mem_cons_of_mem _ hgm.1, hgm.2⟩]
        · rw [if_neg hgm, if_neg (fun hc => hgm ⟨(List.mem_cons.mp hc.1).resolve_left hgq, hc.2⟩)]

/-- The qualifier loop keeps the membership map's length. -/
theorem memberFold_length (tri : Triangulation) (grid_points : List Pt) (i : ℕ) :
    ∀ (quals : List ℕ) (m : List (List ℕ)),
      (quals.foldl (fun m g =>
          if 0 ≤ tri.find_simplex (grid_points.getD g (0, 0)) then
            m.set g (m.getD g [] ++ [i])
          else m) m).length = m.length := by
  intro quals
  induction quals with
  | nil => intro m; rfl
  | cons q qs ih =>
    intro m
    rw [List.foldl_cons]
    by_cases hguard : 0 ≤ tri.find_simplex (grid_points.getD q (0, 0))
    · rw [if_pos hguard, ih]
      simp
    · rw [if_neg hguard, ih]

/-- One completed `find_natural_neighbors` iteration: the membership map
keeps one entry per grid point, and every entry is either unchanged or gets
the current simplex index appended — the latter only for a grid point inside
the triangulation. -/
theorem naturalNeighborStep_some_getD (sq : ℚ → ℚ) (tri : Triangulation)
    (grid_points : List Pt) (st : List (List ℕ) × List (Pt × Option ℚ))
    (i : ℕ) (s : ℕ × ℕ × ℕ) (st2 : List (List ℕ) × List (Pt × Option ℚ))
    (h : naturalNeighborStep sq tri grid_points st i s = some st2)
    (hlen : st.1.length = grid_points.length) :
    st2.1.length = grid_points.length
    ∧ ∀ g : ℕ, st2.1.getD g [] = st.1.getD g []
        ∨ (st2.1.getD g [] = st.1.getD g [] ++ [i]
            ∧ 0 ≤ tri.find_simplex (grid_points.getD g (0, 0))) := by
  simp only [naturalNeighborStep] at h
  cases hcc : circumcenter (simplexPoints tri s).1 (simplexPoints tri s).2.1
      (simplexPoints tri s).2.2 with
  | none => rw [hcc] at h; cases h
  | some cc =>
    rw [hcc] at h
    have h2 := Option.some.inj h
    subst h2
    have hnodup : ((List.range grid_points.length).filter (fun g =>
        ballTest sq (circumcircle_radius sq (simplexPoints tri s).1
          (simplexPoints tri s).2.1 (simplexPoints tri s).2.2)
          (grid_points.getD g (0, 0)) cc)).Nodup :=
      List.Nodup.filter _ (List.nodup_range _)
    have hbound : ∀ q ∈ (List.range grid_points.length).filter (fun g =>
        ballTest sq (circumcircle_radius sq (simplexPoints tri s).1
          (simplexPoints tri s).2.1 (simplexPoints tri s).2.2)
          (grid_points.getD g (0, 0)) cc), q < st.1.length := by
      intro q hq
      rw [hlen]
      exact List.mem_range.mp (List.mem_filter.mp hq).1
    constructor
    · rw [memberFold_length tri grid_points i _ st.1]
      exact hlen
    · intro g
      rw [memberFold_getD tri grid_points i _ st.1 hnodup hbound g]
      by_cases hcond : g ∈ (List.range grid_points.length).filter (fun g =>
          ballTest sq (circumcircle_radius sq (simplexPoints tri s).1
            (simplexPoints tri s).2.1 (simplexPoints tri s).2.2)
            (grid_points.getD g (0, 0)) cc) ∧ 0 ≤ tri.find_simplex (grid_points.getD g (0, 0))
      · rw [if_pos hcond]
        exact Or.inr ⟨rfl, hcond.2⟩
      · rw [if_neg hcond]
        exact Or.inl rfl

/-- Invariant of the simplex loop of `find_natural_neighbors`: the map keeps
one entry per grid point, entries stay duplicate-free (they hold strictly
increasing simplex indices), and entries of grid points outside the
triangulation stay empty. -/
theorem naturalNeighborPass_invariant (sq : ℚ → ℚ) (tri : Triangulation)
    (grid_points : List Pt) :
    ∀ (rest : List (ℕ × ℕ × ℕ)) (k : ℕ)
      (st : List (List ℕ) × List (Pt × Option ℚ))
      (out : List (List ℕ) × List (Pt × Option ℚ)),
      naturalNeighborPass sq tri grid_points (List.enumFrom k rest) st = some out →
      st.1.length = grid_points.length →
      (∀ g, (st.1.getD g []).Nodup ∧ (∀ x ∈ st.1.getD g [], x < k)) →
      (∀ g, g < grid_points.length →
        tri.find_simplex (grid_points.getD g (0, 0)) < 0 → st.1.getD g [] = []) →
      out.1.length = grid_points.length
      ∧ (∀ g, (out.1.getD g []).Nodup)
      ∧ (∀ g, g < grid_points.length →
          tri.find_simplex (grid_points.getD g (0, 0)) < 0 → out.1.getD g [] = []) := by
  intro rest
  induction rest with
  | nil =>
    intro k st out h hlen hnd hout
    have h2 := Option.some.inj h
    subst h2
    exact ⟨hlen, fun g => (hnd g).1, hout⟩
  | cons s rest' ih =>
    intro k st out h hlen hnd hout
    rw [List.enumFrom_cons] at h
    simp only [naturalNeighborPass] at h
    cases hstep : naturalNeighborStep sq tri grid_points st k s with
    | none => rw [hstep] at h; cases h
    | some st2 =>
      rw [hstep] at h
      obtain ⟨hlen2, hupd⟩ :=
        naturalNeighborStep_some_getD sq tri grid_points st k s st2 hstep hlen
      refine ih (k + 1) st2 out h hlen2 ?_ ?_
      · intro g
        rcases hupd g with heq | ⟨heq, _⟩
        · rw [heq]
          exact ⟨(hnd g).1, fun x hx => Nat.lt_succ_of_lt ((hnd g).2 x hx)⟩
        · rw [heq]
          refine ⟨?_, ?_⟩
          · rw [List.nodup_append]
            refine ⟨(hnd g).1, List.nodup_singleton _, ?_⟩
            intro x hx hx2
            have hxk := (hnd g).2 x hx
            have : x = k := List.mem_singleton.mp hx2
            omega
          · intro x hx
            rcases List.mem_append.mp hx with hx1 | hx1
            · exact Nat.lt_succ_of_lt ((hnd g).2 x hx1)
            · have : x = k := List.mem_singleton.mp hx1
              omega
      · intro g hg hfs
        rcases hupd g with heq | ⟨_, hin⟩
        · rw [heq]
          exact hout g hg hfs
        · omega

/-- C8: whenever `find_natural_neighbors` completes, the returned membership
map has exactly one entry per grid point (keys `0..len-1`, modelled
positionally), every entry is duplicate-free, and any grid point that
`find_simplex` locates inside no simplex (outside the convex hull) has an
empty entry. -/
theorem find_natural_neighbors_members_spec (sq : ℚ → ℚ) (tri : Triangulation)
    (grid_points : List Pt) (members : List (List ℕ))
    (info : List (Pt × Option ℚ))
    (h : find_natural_neighbors sq tri grid_points = some (members, info)) :
    members.length = grid_points.length
    ∧ (∀ l ∈ members, l.Nodup)
    ∧ (∀ g, g < grid_points.length →
        tri.find_simplex (grid_points.getD g (0, 0)) < 0 → members.getD g [] = []) := by
  unfold find_natural_neighbors at h
  rw [List.enum_eq_enumFrom] at h
  obtain ⟨h1, h2, h3⟩ := naturalNeighborPass_invariant sq tri grid_points
    tri.simplices 0 (List.replicate grid_points.length [], []) (members, info) h
    (by simp)
    (fun g => by rw [getD_replicate_nil_list]; exact ⟨List.nodup_nil, by simp⟩)
    (fun g _ _ => getD_replicate_nil_list _ _)
  refine ⟨h1, ?_, h3⟩
  intro l hl
  obtain ⟨g, hg, hgl⟩ := List.mem_iff_getElem.mp hl
  have h4 := h2 g
  rw [List.getD_eq_getElem _ _ hg, hgl] at h4
  exact h4

/-- C8 witness: concrete run on the one-triangle triangulation with one grid
point inside and one outside. -/
theorem find_natural_neighbors_members_spec_witness :
    ([[0], []] : List (List ℕ)).length
        = ([((1 : ℚ) / 4, (1 : ℚ) / 4), (5, 5)] : List Pt).length
    ∧ (∀ l ∈ ([[0], []] : List (List ℕ)), l.Nodup)
    ∧ (∀ g, g < ([((1 : ℚ) / 4, (1 : ℚ) / 4), (5, 5)] : List Pt).length →
        oneTriangle.find_simplex
            (([((1 : ℚ) / 4, (1 : ℚ) / 4), (5, 5)] : List Pt).getD g (0, 0)) < 0 →
        ([[0], []] : List (List ℕ)).getD g [] = []) :=
  find_natural_neighbors_members_spec id oneTriangle
    [((1 : ℚ) / 4, (1 : ℚ) / 4), (5, 5)] [[0], []] [((1 / 2, 1 / 2), some 1)] (by
      norm_num [find_natural_neighbors, naturalNeighborPass, naturalNeighborStep,
        ballTest, simplexPoints, getPoint, oneTriangle, circumcenter, d_div,
        circumcircle_radius, distance, dist_2, triangle_area, List.enum,
        List.enumFrom, List.range_succ, List.replicate, List.set])

end MetPy
